import Mathlib

/-!
Verification of the I/O multiplexing logic of the CXG Computachess II driver
(`src/mame/cxg/computachess2.cpp`, class `cpchess2_state`).

The driver keeps one byte of internal state, `m_inp_mux`, and exposes three
I/O handlers:

* `mux_w<N>` (for N = 0, 1): writes one inverted 4-bit nibble into `m_inp_mux`
  and forwards the updated byte to the PWM display as the column mask;
* `control_w`: drives the DAC from bit 4 of the data and the display row
  select from bits 2-3 (inverted);
* `input_r`: builds a 16-bit composite from the two keypad ports and the
  eight chessboard files selected by `m_inp_mux`, and returns its complement.

Machine integers are modelled as `Nat` with explicit `% 2^w` truncation at
the points where the C++ types truncate (`u8` members and parameters,
`u16` return values).
-/

namespace Cpchess2

/-- `BIT(x, n)` from the MAME headers: `(x >> n) & 1`, as a `Bool` via
`Nat.testBit` (the two agree: `testBit x n = ((x >>> n) &&& 1 = 1)`). -/
def BIT (x n : Nat) : Bool := Nat.testBit x n

/-- `template<int N> void cpchess2_state::mux_w(u8 data)`:
`m_inp_mux = (m_inp_mux & ~(0xf << shift)) | ((data ^ 0xf) << shift)`
with `shift = N * 4`.  `mux` is the current value of the `u8` member
`m_inp_mux` (hence `% 256` on read), `data` is the `u8` argument
(hence `% 256`), `~` is 32-bit integer complement (modelled as
`0xffffffff ^^^ ·`, exact for the operands in range), and the final
`% 256` is the truncating assignment back into the `u8` member. -/
def mux_w (N : Nat) (mux data : Nat) : Nat :=
  let shift := N * 4
  (((mux % 256) &&& (0xffffffff ^^^ (0xf <<< shift)))
    ||| (((data % 256) ^^^ 0xf) <<< shift)) % 256

/-- The 4-bit slice of a mux byte at nibble slot `k` (slot 0 = bits 0-3,
slot 1 = bits 4-7).  (Named `nibble` because Mathlib already takes `slice`.) -/
def nibble (k m : Nat) : Nat := (m >>> (k * 4)) &&& 0xf

/-- `void cpchess2_state::control_w(u16 data)`: the pair of values forwarded
to the collaborators, `(m_dac->write(BIT(data, 4)), m_display->write_my(~data >> 2 & 3))`.
`data` is the `u16` argument (hence `% 65536`); `~data >> 2 & 3` keeps only
bits 2-3 of the complement, so the 32-bit `~` is modelled as `^^^ 0xffff`,
which agrees on those bits.  The function writes no member of the state. -/
def control_w (data : Nat) : Bool × Nat :=
  let d := data % 65536
  (BIT d 4, ((d ^^^ 0xffff) >>> 2) &&& 3)

/-- The accumulator `data` built by `u16 cpchess2_state::input_r()` just
before the final `return ~data`: first the keypad loop
`for (i = 0; i < 2; i++) if (m_inp_mux & m_inputs[i]->read()) data |= 0x40 << i;`
then the board loop
`for (i = 0; i < 8; i++) if (BIT(m_inp_mux, i)) data |= m_board->read_file(i ^ 7) << 8;`.
`inputs i` models `m_inputs[i]->read()` and `board f` models
`m_board->read_file(f)`; `read_file` returns a `u8`, hence `% 256`. -/
def input_acc (mux : Nat) (inputs board : Nat → Nat) : Nat :=
  (List.range 8).foldl
    (fun d i => if BIT mux i then d ||| ((board (i ^^^ 7) % 256) <<< 8) else d)
    ((List.range 2).foldl
      (fun d i => if mux &&& inputs i ≠ 0 then d ||| (0x40 <<< i) else d) 0)

/-- `u16 cpchess2_state::input_r()`: the returned value `~data`, the 16-bit
complement of the accumulator (the accumulator never exceeds 16 bits). -/
def input_r (mux : Nat) (inputs board : Nat → Nat) : Nat :=
  0xffff ^^^ input_acc mux inputs board

/-- The chessboard loop of `input_r` run on its own from an accumulator of 0:
the contribution of `for (i = 0; i < 8; i++) if (BIT(m_inp_mux, i))
data |= m_board->read_file(i ^ 7) << 8;` to the composite. -/
def boardAcc (mux : Nat) (board : Nat → Nat) : Nat :=
  (List.range 8).foldl
    (fun d i => if BIT mux i then d ||| ((board (i ^^^ 7) % 256) <<< 8) else d) 0

/-- The driver state: `u8 m_inp_mux` is the only data member the three
handlers touch (the devices are external collaborators). -/
structure CpchessState where
  inp_mux : Nat
deriving DecidableEq

/-- `mux_w<N>` as a state transformer: updates `m_inp_mux` and returns the
byte passed on to `m_display->write_mx`. -/
def mux_w_op (N data : Nat) (s : CpchessState) : CpchessState × Nat :=
  let m := mux_w N s.inp_mux data
  (⟨m⟩, m)

/-- `control_w` as a state transformer: writes no member, emits the DAC
level and the display row. -/
def control_w_op (data : Nat) (s : CpchessState) : CpchessState × (Bool × Nat) :=
  (s, control_w data)

/-- `input_r` as a state transformer: writes no member, returns the
composite read built from `m_inp_mux` and the collaborator readings. -/
def input_r_op (inputs board : Nat → Nat) (s : CpchessState) :
    CpchessState × Nat :=
  (s, input_r s.inp_mux inputs board)

end Cpchess2

namespace Cpchess2

set_option maxRecDepth 100000

/-- C1: for every 4-bit value `v` and slot `N ∈ {0,1}`, `mux_w<N>` sets the
4-bit slice of the mux byte at offset `N*4` to `v ^^^ 0xf` and leaves the
other 4-bit slice unchanged. -/
theorem mux_w_sets_slice :
    ∀ N < 2, ∀ v < 16, ∀ mux < 256,
      nibble N (mux_w N mux v) = v ^^^ 0xf ∧
      nibble (1 - N) (mux_w N mux v) = nibble (1 - N) mux := by
  decide

/-- Witness for C1 at N = 1, v = 3, mux = 0x5a. -/
theorem mux_w_sets_slice_witness :
    nibble 1 (mux_w 1 0x5a 3) = 3 ^^^ 0xf ∧
    nibble 0 (mux_w 1 0x5a 3) = nibble 0 0x5a :=
  mux_w_sets_slice 1 (by decide) 3 (by decide) 0x5a (by decide)

/-- A fold whose step only ORs data into the accumulator factors over any
initial accumulator. -/
theorem foldl_or_of_step (g : Nat → Nat → Nat)
    (hg : ∀ d i, g d i = d ||| g 0 i) :
    ∀ (l : List Nat) (d : Nat), l.foldl g d = d ||| l.foldl g 0 := by
  intro l
  induction l with
  | nil => intro d; simp
  | cons i t ih =>
      intro d
      rw [List.foldl_cons, List.foldl_cons, ih (g d i), ih (g 0 i), hg d i,
        Nat.or_assoc]

/-- A fold whose step preserves a predicate on the accumulator preserves it
overall. -/
theorem foldl_preserve (P : Nat → Prop) (g : Nat → Nat → Nat)
    (hg : ∀ d i, P d → P (g d i)) :
    ∀ (l : List Nat) (d : Nat), P d → P (l.foldl g d) := by
  intro l
  induction l with
  | nil => intro d hd; simpa using hd
  | cons i t ih => intro d hd; rw [List.foldl_cons]; exact ih _ (hg d i hd)

/-- The accumulator of `input_r` splits into the two keypad bits and the
chessboard contribution. -/
theorem input_acc_eq (mux : Nat) (ins board : Nat → Nat) :
    input_acc mux ins board =
      ((if mux &&& ins 0 ≠ 0 then 64 else 0) |||
       (if mux &&& ins 1 ≠ 0 then 128 else 0)) ||| boardAcc mux board := by
  unfold input_acc boardAcc
  rw [foldl_or_of_step
    (fun d i => if BIT mux i then d ||| ((board (i ^^^ 7) % 256) <<< 8) else d)
    (by intro d i; by_cases h : BIT mux i <;> simp [h])]
  congr 1
  rw [show List.range 2 = [0, 1] from rfl]
  simp only [List.foldl_cons, List.foldl_nil]
  split_ifs <;> decide

/-- With a single mux line `i < 8` selected, the chessboard loop contributes
exactly file `i ^^^ 7`, shifted into the upper byte. -/
theorem boardAcc_two_pow : ∀ i < 8, ∀ board : Nat → Nat,
    boardAcc (2 ^ i) board = (board (i ^^^ 7) % 256) <<< 8 := by
  intro i hi board
  unfold boardAcc BIT
  rw [show List.range 8 = [0, 1, 2, 3, 4, 5, 6, 7] from rfl]
  simp only [List.foldl_cons, List.foldl_nil, Nat.testBit_two_pow]
  interval_cases i <;> simp

/-- Extracting the upper byte of a 16-bit composite whose low byte is `a` and
whose high byte is `b`. -/
theorem upper_byte (a b : Nat) (ha : a < 256) (hb : b < 256) :
    ((a ||| (b <<< 8)) >>> 8) &&& 255 = b := by
  apply Nat.eq_of_testBit_eq
  intro j
  simp only [show (255 : Nat) = 2 ^ 8 - 1 by norm_num, Nat.testBit_and,
    Nat.testBit_shiftRight, Nat.testBit_or, Nat.testBit_shiftLeft,
    Nat.testBit_two_pow_sub_one]
  have ha8 : Nat.testBit a (8 + j) = false := by
    apply Nat.testBit_lt_two_pow
    calc a < 256 := ha
      _ = 2 ^ 8 := by norm_num
      _ ≤ 2 ^ (8 + j) := Nat.pow_le_pow_right (by norm_num) (by omega)
  rcases Nat.lt_or_ge j 8 with hj | hj
  · simp [ha8, hj, show 8 ≤ 8 + j by omega, show 8 + j - 8 = j by omega]
  · have hbj : Nat.testBit b j = false := by
      apply Nat.testBit_lt_two_pow
      calc b < 256 := hb
        _ = 2 ^ 8 := by norm_num
        _ ≤ 2 ^ j := Nat.pow_le_pow_right (by norm_num) hj
    simp [ha8, hbj, show ¬ j < 8 by omega, show 8 + j - 8 = j by omega]

/-- C4 counterexample: writing data `0x10` to slot 0 is not the same as
writing `0x10 &&& 0xf`, and it does disturb slot 1's stored slice. -/
theorem mux_w_mask_cex :
    ¬ (mux_w 0 0 0x10 = mux_w 0 0 (0x10 &&& 0xf)) ∧
    nibble 1 (mux_w 0 0 0x10) ≠ nibble 1 (mux_w 0 0 (0x10 &&& 0xf)) := by
  decide

/-- C4 (amended): for slot 1 the write behaves as if `data` were masked to
its low 4 bits; for slot 0 it does not in general — the result is the
masked write with bits 4-7 of `data` additionally ORed into the high
slice. -/
theorem mux_w_mask_amended : ∀ data < 256, ∀ mux < 256,
    mux_w 1 mux data = mux_w 1 mux (data &&& 0xf) ∧
    mux_w 0 mux data = mux_w 0 mux (data &&& 0xf) ||| (data &&& 0xf0) := by
  intro data hd mux hm
  constructor
  · apply Nat.eq_of_testBit_eq
    intro j
    simp only [mux_w,
      show (4294967295 : Nat) = 2 ^ 32 - 1 by norm_num,
      show (256 : Nat) = 2 ^ 8 by norm_num,
      show (15 : Nat) = 2 ^ 4 - 1 by norm_num]
    simp only [Nat.testBit_mod_two_pow, Nat.testBit_or, Nat.testBit_and,
      Nat.testBit_xor, Nat.testBit_shiftLeft, Nat.testBit_shiftRight,
      Nat.testBit_two_pow_sub_one]
    rcases Nat.lt_or_ge j 8 with hj | hj
    · interval_cases j <;> simp
    · have h1 : ¬ j < 8 := by omega
      simp [h1]
  · apply Nat.eq_of_testBit_eq
    intro j
    simp only [mux_w,
      show (4294967295 : Nat) = 2 ^ 32 - 1 by norm_num,
      show (256 : Nat) = 2 ^ 8 by norm_num,
      show (240 : Nat) = (2 ^ 4 - 1) <<< 4 by decide,
      show (15 : Nat) = 2 ^ 4 - 1 by norm_num]
    simp only [Nat.testBit_mod_two_pow, Nat.testBit_or, Nat.testBit_and,
      Nat.testBit_xor, Nat.testBit_shiftLeft, Nat.testBit_shiftRight,
      Nat.testBit_two_pow_sub_one]
    rcases Nat.lt_or_ge j 8 with hj | hj
    · interval_cases j <;> simp
    · have h1 : ¬ j < 8 := by omega
      have h2 : ¬ j < 4 := by omega
      have hdj : Nat.testBit data j = false := by
        apply Nat.testBit_lt_two_pow
        calc data < 256 := hd
          _ = 2 ^ 8 := by norm_num
          _ ≤ 2 ^ j := Nat.pow_le_pow_right (by norm_num) hj
      simp [h1, h2, hdj]

/-- Witness for the amended C4 at data = 0x35, mux = 0xa2. -/
theorem mux_w_mask_amended_witness :
    mux_w 1 0xa2 0x35 = mux_w 1 0xa2 (0x35 &&& 0xf) ∧
    mux_w 0 0xa2 0x35 = mux_w 0 0xa2 (0x35 &&& 0xf) ||| (0x35 &&& 0xf0) :=
  mux_w_mask_amended 0x35 (by decide) 0xa2 (by decide)

/-- C10: a slot-1 write never changes bits 0-3 of the mux byte, for every
8-bit data value: the inverted nibble is shifted up by 4, and anything past
bit 7 is truncated by the `u8` store, so nothing can wrap into bits 0-3. -/
theorem mux_w_slot1_low_nibble : ∀ data < 256, ∀ mux < 256,
    nibble 0 (mux_w 1 mux data) = nibble 0 mux := by
  intro data hd mux hm
  apply Nat.eq_of_testBit_eq
  intro j
  simp only [mux_w, nibble,
    show (4294967295 : Nat) = 2 ^ 32 - 1 by norm_num,
    show (256 : Nat) = 2 ^ 8 by norm_num,
    show (15 : Nat) = 2 ^ 4 - 1 by norm_num]
  simp only [Nat.testBit_mod_two_pow, Nat.testBit_or, Nat.testBit_and,
    Nat.testBit_xor, Nat.testBit_shiftLeft, Nat.testBit_shiftRight,
    Nat.testBit_two_pow_sub_one, Nat.zero_mul, Nat.shiftRight_zero]
  rcases Nat.lt_or_ge j 4 with hj | hj
  · interval_cases j <;> simp
  · have h1 : ¬ j < 4 := by omega
    simp [h1]

/-- Witness for C10 at data = 0x7f, mux = 0x99. -/
theorem mux_w_slot1_low_nibble_witness :
    nibble 0 (mux_w 1 0x99 0x7f) = nibble 0 0x99 :=
  mux_w_slot1_low_nibble 0x7f (by decide) 0x99 (by decide)

/-- C2: with only mux bit `i` set, the upper byte of the accumulator (before
the final complement) is exactly the board's `read_file(i ^ 7)` value. -/
theorem input_r_board_upper_byte : ∀ i < 8, ∀ ins board : Nat → Nat,
    (∀ f, board f < 256) →
    ((input_acc (2 ^ i) ins board) >>> 8) &&& 0xff = board (i ^^^ 7) := by
  intro i hi ins board hb
  rw [input_acc_eq, boardAcc_two_pow i hi board, Nat.mod_eq_of_lt (hb (i ^^^ 7))]
  apply upper_byte
  · split_ifs <;> decide
  · exact hb (i ^^^ 7)

/-- Witness for C2 at i = 2, no keys pressed, every file reading 7. -/
theorem input_r_board_upper_byte_witness :
    ((input_acc (2 ^ 2) (fun _ => 0) (fun _ => 7)) >>> 8) &&& 0xff = 7 :=
  input_r_board_upper_byte 2 (by decide) (fun _ => 0) (fun _ => 7)
    (fun _ => by show (7 : Nat) < 256; decide)

/-- C3 counterexample: with mux = 1, `readGroup(0) = 1` (non-zero, and
`mux &&& 1 ≠ 0`) but `readGroup(1) = 1` as well, the accumulator has bit 7
set, because the group-1 gate `mux & m_inputs[1]->read()` also fires. -/
theorem input_r_keypad_gate_cex :
    ¬ ((input_acc 1 (fun _ => 1) (fun _ => 0)).testBit 6 = true ∧
       (input_acc 1 (fun _ => 1) (fun _ => 0)).testBit 7 = false) := by
  decide

/-- C3 (amended): with mux bit 0 set (others clear), `readGroup(0)` non-zero
and mux-gated, and `readGroup(1)` having bit 0 clear — as the `IN.1` port
guarantees, its bits 0-3 being unused — the accumulator has bit 6 set and
bit 7 clear. -/
theorem input_r_keypad_gate : ∀ ins board : Nat → Nat,
    ins 0 ≠ 0 → 1 &&& ins 0 ≠ 0 → BIT (ins 1) 0 = false →
    (input_acc 1 ins board).testBit 6 = true ∧
    (input_acc 1 ins board).testBit 7 = false := by
  intro ins board h0 h0g h1
  have h2 : (1 : Nat) &&& ins 1 = ins 1 % 2 := by
    rw [Nat.and_comm]
    exact Nat.and_one_is_mod (ins 1)
  have hb : ins 1 % 2 = 0 := by
    simp [BIT, Nat.testBit_zero] at h1
    omega
  have hg1 : ¬ ((1 : Nat) &&& ins 1 ≠ 0) := by rw [h2, hb]; simp
  have hba : boardAcc 1 board = (board 7 % 256) <<< 8 := by
    simpa using boardAcc_two_pow 0 (by norm_num) board
  rw [input_acc_eq, if_pos h0g, if_neg hg1, hba]
  constructor
  · simp [Nat.testBit_or, Nat.testBit_shiftLeft,
      show Nat.testBit 64 6 = true by decide]
  · simp [Nat.testBit_or, Nat.testBit_shiftLeft,
      show Nat.testBit 64 7 = false by decide]

/-- Witness for the amended C3: group 0 reads 1, group 1 reads 0, empty
board. -/
theorem input_r_keypad_gate_witness :
    (input_acc 1 (fun x => if x = 0 then 1 else 0) (fun _ => 0)).testBit 6
      = true ∧
    (input_acc 1 (fun x => if x = 0 then 1 else 0) (fun _ => 0)).testBit 7
      = false :=
  input_r_keypad_gate (fun x => if x = 0 then 1 else 0) (fun _ => 0)
    (by decide) (by decide) (by decide)

/-- C6: the row forwarded to the display driver is `(~data >> 2) & 3`, and
over the four settings of bits 2-3 of the input it follows the inverted
table 00 → 3, 01 → 2, 10 → 1, 11 → 0. -/
theorem control_w_row_table : ∀ data < 65536,
    (control_w data).2 = ((data ^^^ 0xffff) >>> 2) &&& 3 ∧
    ((data >>> 2) &&& 3 = 0 → (control_w data).2 = 3) ∧
    ((data >>> 2) &&& 3 = 1 → (control_w data).2 = 2) ∧
    ((data >>> 2) &&& 3 = 2 → (control_w data).2 = 1) ∧
    ((data >>> 2) &&& 3 = 3 → (control_w data).2 = 0) := by
  intro data hd
  have hmod : data % 65536 = data := Nat.mod_eq_of_lt hd
  have hfst : (control_w data).2 = ((data ^^^ 0xffff) >>> 2) &&& 3 := by
    simp [control_w, hmod]
  have hrow : ((data ^^^ 0xffff) >>> 2) &&& 3 = 3 ^^^ ((data >>> 2) &&& 3) := by
    apply Nat.eq_of_testBit_eq
    intro j
    simp only [show (65535 : Nat) = 2 ^ 16 - 1 by norm_num,
      show (3 : Nat) = 2 ^ 2 - 1 by norm_num,
      Nat.testBit_and, Nat.testBit_xor, Nat.testBit_shiftRight,
      Nat.testBit_two_pow_sub_one]
    rcases Nat.lt_or_ge j 2 with hj | hj
    · interval_cases j <;> simp
    · simp [show ¬ j < 2 by omega]
  refine ⟨hfst, ?_, ?_, ?_, ?_⟩ <;> intro h <;> rw [hfst, hrow, h] <;> decide

/-- Witness for C6 at data = 4 (bits 2-3 = 01, row 2). -/
theorem control_w_row_table_witness :
    (control_w 4).2 = ((4 ^^^ 0xffff) >>> 2) &&& 3 ∧
    ((4 >>> 2) &&& 3 = 0 → (control_w 4).2 = 3) ∧
    ((4 >>> 2) &&& 3 = 1 → (control_w 4).2 = 2) ∧
    ((4 >>> 2) &&& 3 = 2 → (control_w 4).2 = 1) ∧
    ((4 >>> 2) &&& 3 = 3 → (control_w 4).2 = 0) :=
  control_w_row_table 4 (by decide)

/-- C7: with mux = 0 the accumulator stays 0 for every reading, and the
composite read returns the all-ones value 0xffff. -/
theorem input_r_mux_zero : ∀ ins board : Nat → Nat,
    input_acc 0 ins board = 0 ∧ input_r 0 ins board = 0xffff := by
  intro ins board
  have hacc : input_acc 0 ins board = 0 := by
    rw [input_acc_eq]
    have hzb : boardAcc 0 board = 0 := by
      unfold boardAcc BIT
      rw [show List.range 8 = [0, 1, 2, 3, 4, 5, 6, 7] from rfl]
      simp
    simp [hzb]
  exact ⟨hacc, by simp [input_r, hacc]⟩

/-- C5: the composite read is pure — it leaves the driver state untouched
and a second read with the same external readings returns the same value. -/
theorem input_r_pure : ∀ (ins board : Nat → Nat) (s : CpchessState),
    (input_r_op ins board s).1 = s ∧
    (input_r_op ins board (input_r_op ins board s).1).2
      = (input_r_op ins board s).2 :=
  fun _ _ _ => ⟨rfl, rfl⟩

/-- C8: only the nibble writes touch `m_inp_mux`: the control write and the
composite read leave the whole driver state unchanged for every input and
every external reading. -/
theorem inp_mux_frame : ∀ (data : Nat) (ins board : Nat → Nat)
    (s : CpchessState),
    (control_w_op data s).1 = s ∧ (input_r_op ins board s).1 = s :=
  fun _ _ _ _ => ⟨rfl, rfl⟩

/-- C9: bits 0-5 of the returned composite are always 1: the accumulator can
only set bits 6-15, so the final complement leaves the low six bits set. -/
theorem input_r_low_six_bits : ∀ (mux : Nat) (ins board : Nat → Nat),
    input_r mux ins board &&& 0x3f = 0x3f := by
  intro mux ins board
  have hg1 : ∀ d i, (∀ j < 6, Nat.testBit d j = false) →
      ∀ j < 6, Nat.testBit
        (if mux &&& ins i ≠ 0 then d ||| (0x40 <<< i) else d) j = false := by
    intro d i hd j hj
    by_cases h : mux &&& ins i ≠ 0
    · rw [if_pos h]
      have hsh : (0x40 <<< i : Nat) = 2 ^ (6 + i) := by
        rw [show (0x40 : Nat) = 2 ^ 6 by norm_num, Nat.shiftLeft_eq, ← pow_add]
      simp [Nat.testBit_or, hd j hj, hsh, Nat.testBit_two_pow,
        show 6 + i ≠ j by omega]
    · rw [if_neg h]; exact hd j hj
  have hg2 : ∀ d i, (∀ j < 6, Nat.testBit d j = false) →
      ∀ j < 6, Nat.testBit
        (if BIT mux i then d ||| ((board (i ^^^ 7) % 256) <<< 8) else d) j
        = false := by
    intro d i hd j hj
    by_cases h : BIT mux i
    · rw [if_pos h]
      simp [Nat.testBit_or, hd j hj, Nat.testBit_shiftLeft,
        show ¬ 8 ≤ j by omega]
    · rw [if_neg h]; exact hd j hj
  have hacc : ∀ j < 6, (input_acc mux ins board).testBit j = false :=
    foldl_preserve _ _ hg2 (List.range 8) _
      (foldl_preserve _ _ hg1 (List.range 2) 0
        (fun j _ => Nat.zero_testBit j))
  apply Nat.eq_of_testBit_eq
  intro j
  simp only [input_r, show (63 : Nat) = 2 ^ 6 - 1 by norm_num,
    show (65535 : Nat) = 2 ^ 16 - 1 by norm_num, Nat.testBit_and,
    Nat.testBit_xor, Nat.testBit_two_pow_sub_one]
  rcases Nat.lt_or_ge j 6 with hj | hj
  · simp [hacc j hj, hj, show j < 16 by omega]
  · simp [show ¬ j < 6 by omega]

end Cpchess2
